import Mathlib

/-!
# Verification of the AIBTCC single-node ledger

Shallow embedding of `src/blockchain.js` (the file holding the `Transaction`,
`Block` and `Blockchain` classes), together with the Redis-backed balance /
pending-pool state it manipulates.  The SHA-256 digest, the elliptic-curve
signature verifier and the Merkle-tree root (whose module is not part of the
sources) are abstracted as function parameters `H`, `V` and `M`; everything
else is translated operation by operation from the JavaScript.

JavaScript numbers appearing in the code are modelled as `Int` (all amounts,
timestamps and balances the program manipulates are integral); the implicit
number-to-string coercion performed by the `+` operator and by template
literals is modelled by `natStr` / `intStr`, the usual decimal rendering.
-/

/-- Decimal digits of `n`, most significant first, as characters.  The first
argument is structural fuel; `fuel > n` is always enough.  This models the
string JavaScript produces when a non-negative integral number is coerced to
a string. -/
def natStrAux : Nat → Nat → List Char
  | 0, _ => []
  | fuel + 1, n =>
    if n < 10 then [Nat.digitChar n]
    else natStrAux fuel (n / 10) ++ [Nat.digitChar (n % 10)]

/-- Decimal rendering of a natural number (JavaScript `String(n)` for `n ≥ 0`). -/
def natStr (n : Nat) : String := String.mk (natStrAux (n + 1) n)

/-- Decimal rendering of an integer (JavaScript `String(n)` for integral `n`). -/
def intStr : Int → String
  | Int.ofNat n => natStr n
  | Int.negSucc n => "-" ++ natStr (n + 1)

/-- `Nat.digitChar` is injective below 10. -/
theorem digitChar_inj_lt10 : ∀ a < 10, ∀ b < 10, Nat.digitChar a = Nat.digitChar b → a = b := by
  decide

/-- Digit characters are never the minus sign. -/
theorem digitChar_ne_dash : ∀ a < 10, Nat.digitChar a ≠ '-' := by
  decide

theorem natStrAux_ne_nil : ∀ (fuel n : Nat), n < fuel → natStrAux fuel n ≠ [] := by
  intro fuel n h
  match fuel with
  | fuel + 1 =>
    simp only [natStrAux]
    split
    · simp
    · simp

theorem natStrAux_inj : ∀ (f g m n : Nat), m < f → n < g →
    natStrAux f m = natStrAux g n → m = n := by
  intro f
  induction f with
  | zero => intro g m n hm; omega
  | succ f ih =>
    intro g m n hm hn heq
    match g with
    | g + 1 =>
      have hn' : n ≤ g := by omega
      simp only [natStrAux] at heq
      by_cases hm10 : m < 10 <;> by_cases hn10 : n < 10
      · simp only [if_pos hm10, if_pos hn10, List.cons.injEq] at heq
        exact digitChar_inj_lt10 m hm10 n hn10 heq.1
      · simp only [if_pos hm10, if_neg hn10] at heq
        exfalso
        cases hcase : natStrAux g (n / 10) with
        | nil =>
          have hlt : n / 10 < g := by
            have : n / 10 < n := Nat.div_lt_self (by omega) (by omega)
            omega
          exact natStrAux_ne_nil g (n / 10) hlt hcase
        | cons a l =>
          rw [hcase] at heq
          have hl := congrArg List.length heq
          simp [List.length_append] at hl
      · simp only [if_neg hm10, if_pos hn10] at heq
        exfalso
        cases hcase : natStrAux f (m / 10) with
        | nil =>
          have hlt : m / 10 < f := by
            have : m / 10 < m := Nat.div_lt_self (by omega) (by omega)
            omega
          exact natStrAux_ne_nil f (m / 10) hlt hcase
        | cons a l =>
          rw [hcase] at heq
          have hl := congrArg List.length heq
          simp [List.length_append] at hl
      · simp only [if_neg hm10, if_neg hn10] at heq
        have hsplit := List.append_inj' heq (by simp)
        have hmod : m % 10 = n % 10 := by
          have h2 := hsplit.2
          simp only [List.cons.injEq] at h2
          exact digitChar_inj_lt10 _ (Nat.mod_lt _ (by omega)) _ (Nat.mod_lt _ (by omega)) h2.1
        have hdiv : m / 10 = n / 10 := by
          apply ih g (m / 10) (n / 10)
          · have : m / 10 < m := Nat.div_lt_self (by omega) (by omega)
            omega
          · have : n / 10 < n := Nat.div_lt_self (by omega) (by omega)
            omega
          · exact hsplit.1
        omega

theorem natStr_injective : Function.Injective natStr := by
  intro m n h
  have h' : natStrAux (m + 1) m = natStrAux (n + 1) n := congrArg String.data h
  exact natStrAux_inj (m + 1) (n + 1) m n (Nat.lt_succ_self m) (Nat.lt_succ_self n) h'

theorem natStrAux_mem_digit : ∀ (fuel n : Nat) (c : Char), c ∈ natStrAux fuel n →
    ∃ d, d < 10 ∧ c = Nat.digitChar d := by
  intro fuel
  induction fuel with
  | zero => intro n c h; simp [natStrAux] at h
  | succ fuel ih =>
    intro n c h
    simp only [natStrAux] at h
    split at h
    · simp at h
      exact ⟨n, by omega, h⟩
    · rw [List.mem_append] at h
      cases h with
      | inl h => exact ih _ _ h
      | inr h =>
        simp at h
        exact ⟨n % 10, Nat.mod_lt _ (by omega), h⟩

theorem natStr_no_dash (n : Nat) : '-' ∉ (natStr n).data := by
  intro hmem
  obtain ⟨d, hd, hc⟩ := natStrAux_mem_digit (n + 1) n '-' hmem
  exact digitChar_ne_dash d hd hc.symm

theorem string_data_append (a b : String) : (a ++ b).data = a.data ++ b.data := rfl

theorem intStr_injective : Function.Injective intStr := by
  intro i j h
  match i, j with
  | Int.ofNat m, Int.ofNat n =>
    simp only [intStr] at h
    exact congrArg Int.ofNat (natStr_injective h)
  | Int.negSucc m, Int.negSucc n =>
    simp only [intStr] at h
    have hdata : (("-" : String) ++ natStr (m + 1)).data = (("-" : String) ++ natStr (n + 1)).data :=
      congrArg String.data h
    rw [string_data_append, string_data_append] at hdata
    have hlists : (natStr (m + 1)).data = (natStr (n + 1)).data := by
      simpa using hdata
    have hmn : m = n := by
      have := natStrAux_inj (m + 2) (n + 2) (m + 1) (n + 1) (by omega) (by omega) hlists
      omega
    rw [hmn]
  | Int.ofNat m, Int.negSucc n =>
    exfalso
    simp only [intStr] at h
    have hdata : (natStr m).data = (("-" : String) ++ natStr (n + 1)).data := congrArg String.data h
    rw [string_data_append] at hdata
    have : '-' ∈ (natStr m).data := by
      rw [hdata]
      exact List.mem_append_left _ (by decide)
    exact natStr_no_dash m this
  | Int.negSucc m, Int.ofNat n =>
    exfalso
    simp only [intStr] at h
    have hdata : (("-" : String) ++ natStr (m + 1)).data = (natStr n).data := congrArg String.data h
    rw [string_data_append] at hdata
    have : '-' ∈ (natStr n).data := by
      rw [← hdata]
      exact List.mem_append_left _ (by decide)
    exact natStr_no_dash n this

/-! ## Key-value store model

The Redis collaborator (`client.get` / `client.set` / `client.hSet` /
`client.hGetAll` / `client.hDel`) is modelled as an association list with
string keys; `alistSet` overwrites an existing binding or appends a fresh
one, `alistDel` removes a binding, `alistGet` reads one. -/

def alistGet {α : Type} : List (String × α) → String → Option α
  | [], _ => none
  | (k', v) :: rest, k => if k' = k then some v else alistGet rest k

def alistSet {α : Type} : List (String × α) → String → α → List (String × α)
  | [], k, v => [(k, v)]
  | (k', v') :: rest, k, v =>
    if k' = k then (k, v) :: rest else (k', v') :: alistSet rest k v

def alistDel {α : Type} : List (String × α) → String → List (String × α)
  | [], _ => []
  | (k', v') :: rest, k =>
    if k' = k then alistDel rest k else (k', v') :: alistDel rest k

theorem alistGet_set_self {α : Type} (l : List (String × α)) (k : String) (v : α) :
    alistGet (alistSet l k v) k = some v := by
  induction l with
  | nil => simp [alistGet, alistSet]
  | cons p rest ih =>
    obtain ⟨k', v'⟩ := p
    by_cases h : k' = k
    · simp [alistGet, alistSet, h]
    · simp [alistGet, alistSet, h, ih]

theorem alistGet_set_other {α : Type} (l : List (String × α)) (k k' : String) (v : α)
    (h : k' ≠ k) : alistGet (alistSet l k v) k' = alistGet l k' := by
  induction l with
  | nil => simp [alistGet, alistSet, Ne.symm h]
  | cons p rest ih =>
    obtain ⟨k0, v0⟩ := p
    by_cases h0 : k0 = k
    · subst h0
      simp [alistGet, alistSet, Ne.symm h]
    · simp only [alistSet, if_neg h0]
      by_cases h1 : k0 = k'
      · simp [alistGet, h1]
      · simp [alistGet, h1, ih]

theorem alistGet_del_self {α : Type} (l : List (String × α)) (k : String) :
    alistGet (alistDel l k) k = none := by
  induction l with
  | nil => simp [alistGet, alistDel]
  | cons p rest ih =>
    obtain ⟨k', v'⟩ := p
    by_cases h : k' = k
    · simp [alistDel, h, ih]
    · simp [alistGet, alistDel, h, ih]

theorem alistGet_del_none {α : Type} (l : List (String × α)) (k k' : String)
    (h : alistGet l k' = none) : alistGet (alistDel l k) k' = none := by
  induction l with
  | nil => simpa [alistDel] using h
  | cons p rest ih =>
    obtain ⟨k0, v0⟩ := p
    by_cases h0 : k0 = k
    · subst h0
      simp only [alistGet] at h
      split at h
      · exact absurd h (by simp)
      · simp [alistDel, ih h]
    · simp only [alistGet] at h
      split at h
      · exact absurd h (by simp)
      · rename_i hne
        simp [alistDel, h0, alistGet, hne, ih h]

/-! ## Transactions (`class Transaction`) -/

/-- The fields of a `Transaction` object.  `fromAddress`, `toAddress` and
`signature` are nullable in the JavaScript and therefore `Option String`;
`blockHash` defaults to the empty string; `hash` is the stored content hash
(set by the constructor, but reassignable, as the code does when loading from
Redis). -/
structure Transaction where
  fromAddress : Option String
  toAddress : Option String
  amount : Int
  timestamp : Int
  signature : Option String
  blockHash : String
  hash : String
deriving DecidableEq, Repr

/-- JavaScript string coercion of a nullable string (`null` renders as the
four characters `null`, as the `+` operator and template literals do). -/
def jsStr : Option String → String
  | none => "null"
  | some s => s

/-- JavaScript truthiness of a nullable string: `null` and the empty string
are falsy. -/
def jsTruthyStr : Option String → Bool
  | none => false
  | some s => !(s = "")

/-- `Transaction.calculateHash`: SHA-256 (abstracted as `H`) of the
concatenation `fromAddress + toAddress + amount + timestamp`. -/
def Transaction.calculateHash (H : String → String) (tx : Transaction) : String :=
  H (jsStr tx.fromAddress ++ jsStr tx.toAddress ++ intStr tx.amount ++ intStr tx.timestamp)

/-- The `Transaction` constructor: stores the fields and sets
`hash = calculateHash()`. -/
def Transaction.new (H : String → String) (fromAddress toAddress : Option String)
    (amount timestamp : Int) (signature : Option String) (blockHash : String) : Transaction :=
  let tx0 : Transaction :=
    { fromAddress := fromAddress, toAddress := toAddress, amount := amount,
      timestamp := timestamp, signature := signature, blockHash := blockHash, hash := "" }
  { tx0 with hash := Transaction.calculateHash H tx0 }

/-- `Transaction.isValid`.  The verifier `V pk msgHash sig` abstracts
`ec.keyFromPublic(pk).verify(msgHash, sig)`; a result of `none` models the
`catch`-handled exception path (malformed key or signature), which the code
maps to `false`.  `fromAddress === null` is accepted unconditionally; a
missing or empty signature is rejected. -/
def Transaction.isValid (H : String → String) (V : String → String → String → Option Bool)
    (tx : Transaction) : Bool :=
  match tx.fromAddress with
  | none => true
  | some pk =>
    match tx.signature with
    | none => false
    | some s =>
      if s.length = 0 then false
      else
        match V pk (Transaction.calculateHash H tx) s with
        | some b => b
        | none => false

/-! ## Blocks (`class Block`) -/

structure Block where
  index : Int
  previousHash : String
  timestamp : Int
  transactions : List Transaction
  difficulty : Nat
  merkleRoot : String
  nonce : Nat
  hash : String
deriving DecidableEq, Repr

/-- `"0".repeat(64)`: the sentinel Merkle root of a block without
transactions. -/
def zeros64 : String := String.mk (List.replicate 64 '0')

/-- `Block.calculateMerkleRoot`: the sentinel for an empty transaction list,
otherwise the root of the Merkle tree over the stored transaction hashes.
The Merkle tree module is not among the sources, so its root computation is
abstracted as the parameter `M`. -/
def Block.calculateMerkleRoot (M : List String → String) (b : Block) : String :=
  if b.transactions.isEmpty then zeros64
  else M (b.transactions.map (fun tx => tx.hash))

/-- Escaping applied by `JSON.stringify` to string values (quote and
backslash; control-character escapes do not arise for the digest/address
strings this program serialises). -/
def jsonEscape (s : String) : String :=
  String.mk (s.data.foldr
    (fun c acc => if c = '"' ∨ c = '\\' then '\\' :: c :: acc else c :: acc) [])

/-- A nullable string as a JSON value. -/
def jsonOptStr : Option String → String
  | none => "null"
  | some s => "\"" ++ jsonEscape s ++ "\""

/-- `JSON.stringify` of one transaction with the `blockHash` field stripped,
as produced inside `Block.calculateHash` (own enumerable fields in
declaration order, minus `blockHash`). -/
def txJson (tx : Transaction) : String :=
  "\x7b\"fromAddress\":" ++ jsonOptStr tx.fromAddress ++
  ",\"toAddress\":" ++ jsonOptStr tx.toAddress ++
  ",\"amount\":" ++ intStr tx.amount ++
  ",\"timestamp\":" ++ intStr tx.timestamp ++
  ",\"signature\":" ++ jsonOptStr tx.signature ++
  ",\"hash\":\"" ++ jsonEscape tx.hash ++ "\"" ++ "\x7d"

/-- `JSON.stringify` of the transaction array. -/
def txsJson (l : List Transaction) : String :=
  "[" ++ String.intercalate "," (l.map txJson) ++ "]"

/-- `Block.calculateHash`: SHA-256 (abstracted as `H`) of
`previousHash + timestamp + merkleRoot + nonce + transactionsData`. -/
def Block.calculateHash (H : String → String) (b : Block) : String :=
  H (b.previousHash ++ intStr b.timestamp ++ b.merkleRoot ++ natStr b.nonce ++
     txsJson b.transactions)

/-- The `Block` constructor: stores the fields, computes the Merkle root,
sets `nonce = 0`, then computes the initial hash. -/
def Block.new (H : String → String) (M : List String → String) (index : Int)
    (previousHash : String) (timestamp : Int) (transactions : List Transaction)
    (difficulty : Nat) : Block :=
  let b0 : Block :=
    { index := index, previousHash := previousHash, timestamp := timestamp,
      transactions := transactions, difficulty := difficulty, merkleRoot := "",
      nonce := 0, hash := "" }
  let b1 := { b0 with merkleRoot := Block.calculateMerkleRoot M b0 }
  { b1 with hash := Block.calculateHash H b1 }

/-- The mining loop's exit test:
`hash.substring(0, difficulty) === Array(difficulty + 1).join("0")`, i.e. the
first `difficulty` characters of the hash (or the whole hash when it is
shorter) equal `difficulty` zero characters. -/
def hitsDifficulty (h : String) (d : Nat) : Bool :=
  h.data.take d = List.replicate d '0'

/-- `Block.mineBlock`, with explicit fuel for the unbounded nonce search:
while the difficulty test fails, increment the nonce and recompute the hash.
`none` means the loop has not terminated within `fuel` iterations. -/
def mineBlockAux (H : String → String) : Nat → Nat → Block → Option Block
  | fuel, d, b =>
    if hitsDifficulty b.hash d then some b
    else
      match fuel with
      | 0 => none
      | fuel + 1 =>
        let b' : Block := { b with nonce := b.nonce + 1 }
        mineBlockAux H fuel d { b' with hash := Block.calculateHash H b' }

def Block.mineBlock (H : String → String) (fuel : Nat) (b : Block) (d : Nat) : Option Block :=
  mineBlockAux H fuel d b

/-! ## Ledger state (`class Blockchain` and its Redis collaborator) -/

/-- The observable state the `Blockchain` methods manipulate: the in-memory
`chain` and `pendingTransactions` array, plus the state held in Redis — the
`wallet_balance_<address>` keys and the `pending_transactions` hash (keyed by
transaction hash).  The policy constants (`difficulty = 0`,
`miningReward = 100`, `transactionThreshold = 2` in the constructor) are
carried as fields. -/
structure LedgerState where
  chain : List Block
  balances : List (String × Int)
  pendingRedis : List (String × Transaction)
  pendingMem : List Transaction
  difficulty : Nat
  miningReward : Int
  transactionThreshold : Nat
deriving DecidableEq, Repr

/-- The Redis key used by `updateWalletBalance` / `getBalanceOfAddress`:
``` `wallet_balance_${address}` ```.  A `null` address renders as the string
`null`. -/
def walletKey (a : Option String) : String := "wallet_balance_" ++ jsStr a

/-- `Blockchain.updateWalletBalance`: read the current balance (absent key
reads as 0), add the delta, write it back.  Its internal `try/catch` means it
never throws. -/
def updateWalletBalance (bal : List (String × Int)) (a : Option String) (amount : Int) :
    List (String × Int) :=
  let currentBalance := (alistGet bal (walletKey a)).getD 0
  alistSet bal (walletKey a) (currentBalance + amount)

/-- `Blockchain.getBalanceOfAddress` on the in-model store: a missing key
reads as 0. -/
def getBalanceOfAddress (bal : List (String × Int)) (a : Option String) : Int :=
  (alistGet bal (walletKey a)).getD 0

/-- `Blockchain.getBalanceOfAddress` at the raw Redis-read level:
`client.get` either fails (the `catch` returns 0) or yields a nullable
string, and a missing or empty value reads as 0 (JavaScript truthiness),
otherwise the stored numeral is parsed (`parseFloat`, abstracted as
`parse`). -/
def getBalanceRead (parse : String → Int) (r : Except Unit (Option String)) : Int :=
  match r with
  | Except.error _ => 0
  | Except.ok none => 0
  | Except.ok (some s) => if s = "" then 0 else parse s

/-- `Transaction.savePendingToRedis`: `hSet` under the transaction's stored
hash. -/
def savePendingToRedis (pending : List (String × Transaction)) (tx : Transaction) :
    List (String × Transaction) :=
  alistSet pending tx.hash tx

/-- `Transaction.loadPendingTransactionsFromRedis`: each stored entry is
rebuilt from its serialised fields (so `blockHash` comes back empty) and its
`hash` field is overwritten with the Redis key. -/
def loadPendingFromRedis (pending : List (String × Transaction)) : List Transaction :=
  pending.map (fun p => { p.2 with blockHash := "", hash := p.1 })

/-- `Blockchain.addTransaction`.  Returns the state after the call and the
outcome: `Except.error` models the thrown `Error` (with its message), and a
successful call resolves with no value (`Except.ok none`) — the method has
no `return` statement. -/
def addTransaction (H : String → String) (V : String → String → String → Option Bool)
    (s : LedgerState) (tx : Transaction) : LedgerState × Except String (Option String) :=
  if !jsTruthyStr tx.fromAddress || !jsTruthyStr tx.toAddress then
    (s, Except.error ("Transaction must include from and to address"))
  else if !(Transaction.isValid H V tx) then
    (s, Except.error ("Cannot add invalid transaction to chain"))
  else if tx.amount ≤ 0 then
    (s, Except.error ("Transaction amount must be greater than 0"))
  else if getBalanceOfAddress s.balances tx.fromAddress < tx.amount then
    (s, Except.error ("Not enough balance"))
  else
    let b1 := updateWalletBalance s.balances tx.fromAddress (-tx.amount)
    let b2 := updateWalletBalance b1 tx.toAddress tx.amount
    ({ s with balances := b2,
              pendingRedis := savePendingToRedis s.pendingRedis tx,
              pendingMem := s.pendingMem ++ [tx] },
     Except.ok none)

/-! ## Mining (`Blockchain.minePendingTransactions`) -/

/-- Failure injection for the fallible collaborator calls inside the mining
`try` block: the Redis pending-pool snapshot, the durable `block.save()`, or
the `i`-th `removePendingTransactionFromRedis` of the drain loop may throw.
(`updateWalletBalance` catches its own errors and never throws.) -/
inductive MineFail
  | noFail
  | loadFail
  | saveFail
  | removeFail (i : Nat)
deriving DecidableEq, Repr

/-- The drain loop (step 7): for each mined transaction, delete it from the
Redis pending pool, then apply its balance delta — `−amount` at `from` and
`+amount` at `to`, unconditionally (no null-sender guard in the code).  The
second component is the error thrown by a failing removal, which aborts the
rest of the loop. -/
def drainFrom (env : MineFail) : Nat → List Transaction → LedgerState →
    LedgerState × Option String
  | _, [], s => (s, none)
  | i, tx :: rest, s =>
    if env = MineFail.removeFail i then (s, some ("remove error"))
    else
      drainFrom env (i + 1) rest
        { s with
          pendingRedis := alistDel s.pendingRedis tx.hash,
          balances := updateWalletBalance
            (updateWalletBalance s.balances tx.fromAddress (-tx.amount))
            tx.toAddress tx.amount }

/-- The reward transaction built in step 3: `new Transaction(null,
miningRewardAddress, this.miningReward)` followed by the (redundant)
`rewardTx.hash = rewardTx.calculateHash()`. -/
def mkRewardTx (H : String → String) (minerAddress : String) (reward : Int)
    (ts : Int) : Transaction :=
  let t := Transaction.new H none (some minerAddress) reward ts none ""
  { t with hash := Transaction.calculateHash H t }

/-- The body of the mining `try` block (steps 2–7).  Returns `none` when the
nonce search does not terminate within `fuel` iterations (the JavaScript
loop would still be running); otherwise the state reached together with the
error thrown by a failing step, if any.  Note the chain push happens before
`block.save()`, and a successful save writes the block hash into each mined
transaction's `blockHash` field (the code mutates the shared transaction
objects). -/
def mineBody (H : String → String) (M : List String → String) (env : MineFail)
    (fuel : Nat) (minerAddress : String) (rewardTs blockTs : Int) (s : LedgerState) :
    Option (LedgerState × Option String) :=
  if env = MineFail.loadFail then some (s, some ("load error"))
  else
    let s1 := { s with pendingMem := loadPendingFromRedis s.pendingRedis }
    let lastBlock := s1.chain.getLast?
    let blockTxs := s1.pendingMem.take s1.transactionThreshold
    if blockTxs.isEmpty then some (s1, none)
    else
      let rewardTx := mkRewardTx H minerAddress s1.miningReward rewardTs
      let batch := blockTxs ++ [rewardTx]
      let newBlock := Block.new H M
        (match lastBlock with | some lb => lb.index + 1 | none => 0)
        (match lastBlock with | some lb => lb.hash | none => "")
        blockTs batch s1.difficulty
      match Block.mineBlock H fuel newBlock s1.difficulty with
      | none => none
      | some mined =>
        let s2 := { s1 with chain := s1.chain ++ [mined] }
        if env = MineFail.saveFail then some (s2, some ("save error"))
        else
          let saved := { mined with
            transactions := mined.transactions.map
              (fun t => { t with blockHash := mined.hash }) }
          let s3 := { s1 with chain := s1.chain ++ [saved] }
          some (drainFrom env 0 batch s3)

/-- `Blockchain.minePendingTransactions`.  The result is `none` when the
invocation never completes (unbounded nonce search); otherwise the final
state, the number of `releaseLock` calls made, and the error surfaced to the
caller.  If the lock is not acquired the method logs and returns at once;
otherwise the `try/catch/finally` swallows any error and releases the lock
exactly once. -/
def minePendingTransactions (H : String → String) (M : List String → String)
    (env : MineFail) (lockAcquired : Bool) (fuel : Nat) (minerAddress : String)
    (rewardTs blockTs : Int) (s : LedgerState) :
    Option (LedgerState × Nat × Option String) :=
  if !lockAcquired then some (s, 0, none)
  else
    (mineBody H M env fuel minerAddress rewardTs blockTs s).map
      (fun r => (r.1, 1, none))

/-- `Blockchain.isChainValid`'s per-index check, in the order the code
performs it: recomputed hash, predecessor link against the stored previous
hash, recomputed Merkle root. -/
def blockPairOk (H : String → String) (M : List String → String)
    (prev cur : Block) : Bool :=
  cur.hash = Block.calculateHash H cur &&
  cur.previousHash = prev.hash &&
  cur.merkleRoot = Block.calculateMerkleRoot M cur

def isChainValidAux (H : String → String) (M : List String → String) :
    Block → List Block → Bool
  | _, [] => true
  | prev, c :: rest => blockPairOk H M prev c && isChainValidAux H M c rest

/-- `Blockchain.isChainValid`: the loop runs `i` from 1, comparing each block
against its predecessor; index 0 is never examined on its own. -/
def isChainValid (H : String → String) (M : List String → String) :
    List Block → Bool
  | [] => true
  | b :: rest => isChainValidAux H M b rest

/-! ## Supporting lemmas -/

theorem list_isEmpty_false {α : Type} (l : List α) (h : l ≠ []) : l.isEmpty = false := by
  cases l with
  | nil => exact absurd rfl h
  | cons a t => rfl

/-- At difficulty 0 the mining loop exits before its first iteration. -/
theorem mineBlock_zero (H : String → String) (fuel : Nat) (b : Block) :
    Block.mineBlock H fuel b 0 = some b := by
  unfold Block.mineBlock mineBlockAux
  simp [hitsDifficulty]

/-- The drain loop only touches the pending pool and the balance store. -/
theorem drainFrom_frame (env : MineFail) :
    ∀ (txs : List Transaction) (i : Nat) (s : LedgerState),
      (drainFrom env i txs s).1.chain = s.chain ∧
      (drainFrom env i txs s).1.pendingMem = s.pendingMem ∧
      (drainFrom env i txs s).1.difficulty = s.difficulty ∧
      (drainFrom env i txs s).1.miningReward = s.miningReward ∧
      (drainFrom env i txs s).1.transactionThreshold = s.transactionThreshold := by
  intro txs
  induction txs with
  | nil => intro i s; simp [drainFrom]
  | cons tx rest ih =>
    intro i s
    by_cases h : env = MineFail.removeFail i
    · simp [drainFrom, h]
    · simp only [drainFrom, if_neg h]
      exact ih (i + 1) _

/-- Without failure injection the drain loop throws nothing. -/
theorem drainFrom_noFail_snd :
    ∀ (txs : List Transaction) (i : Nat) (s : LedgerState),
      (drainFrom MineFail.noFail i txs s).2 = none := by
  intro txs
  induction txs with
  | nil => intro i s; simp [drainFrom]
  | cons tx rest ih =>
    intro i s
    simp only [drainFrom, if_neg (by simp : ¬MineFail.noFail = MineFail.removeFail i)]
    exact ih (i + 1) _

/-- A key absent from the pending pool stays absent through the drain loop. -/
theorem drainFrom_pending_mono (env : MineFail) :
    ∀ (txs : List Transaction) (i : Nat) (s : LedgerState) (k : String),
      alistGet s.pendingRedis k = none →
      alistGet (drainFrom env i txs s).1.pendingRedis k = none := by
  intro txs
  induction txs with
  | nil => intro i s k h; simpa [drainFrom] using h
  | cons tx rest ih =>
    intro i s k h
    by_cases he : env = MineFail.removeFail i
    · simpa [drainFrom, he] using h
    · simp only [drainFrom, if_neg he]
      exact ih (i + 1) _ k (alistGet_del_none _ _ _ h)

/-- Every transaction processed by a failure-free drain loop is deleted from
the pending pool. -/
theorem drainFrom_deletes :
    ∀ (txs : List Transaction) (i : Nat) (s : LedgerState) (tx : Transaction),
      tx ∈ txs →
      alistGet (drainFrom MineFail.noFail i txs s).1.pendingRedis tx.hash = none := by
  intro txs
  induction txs with
  | nil => intro i s tx h; simp at h
  | cons tx0 rest ih =>
    intro i s tx h
    simp only [drainFrom, if_neg (by simp : ¬MineFail.noFail = MineFail.removeFail i)]
    rcases List.mem_cons.mp h with h | h
    · subst h
      exact drainFrom_pending_mono _ rest (i + 1) _ tx.hash (alistGet_del_self _ _)
    · exact ih (i + 1) _ tx h

/-- A balance key touched by none of the drained transactions keeps its
value through the drain loop. -/
theorem drainFrom_balance_untouched (env : MineFail) :
    ∀ (txs : List Transaction) (i : Nat) (s : LedgerState) (k : String),
      (∀ tx ∈ txs, walletKey tx.fromAddress ≠ k ∧ walletKey tx.toAddress ≠ k) →
      alistGet (drainFrom env i txs s).1.balances k = alistGet s.balances k := by
  intro txs
  induction txs with
  | nil => intro i s k _; simp [drainFrom]
  | cons tx rest ih =>
    intro i s k hk
    by_cases he : env = MineFail.removeFail i
    · simp [drainFrom, he]
    · simp only [drainFrom, if_neg he]
      rw [ih (i + 1) _ k (fun t ht => hk t (List.mem_cons_of_mem _ ht))]
      have h1 := hk tx (List.mem_cons_self _ _)
      simp only [updateWalletBalance]
      rw [alistGet_set_other _ _ _ _ (fun h => h1.2 h.symm),
          alistGet_set_other _ _ _ _ (fun h => h1.1 h.symm)]

/-- Splitting a failure-free drain loop at a list append. -/
theorem drainFrom_append :
    ∀ (l1 l2 : List Transaction) (i : Nat) (s : LedgerState),
      drainFrom MineFail.noFail i (l1 ++ l2) s =
      drainFrom MineFail.noFail (i + l1.length) l2 (drainFrom MineFail.noFail i l1 s).1 := by
  intro l1
  induction l1 with
  | nil => intro l2 i s; simp [drainFrom]
  | cons tx rest ih =>
    intro l2 i s
    simp only [List.cons_append, drainFrom,
      if_neg (by simp : ¬MineFail.noFail = MineFail.removeFail i)]
    rw [show rest.append l2 = rest ++ l2 from rfl, ih]
    simp only [List.length_cons]
    congr 1
    omega

/-- The transaction batch a mining run assembles: the first
`transactionThreshold` pending transactions in pool order, then the reward
transaction. -/
def mineBatch (H : String → String) (minerAddress : String) (rewardTs : Int)
    (s : LedgerState) : List Transaction :=
  (loadPendingFromRedis s.pendingRedis).take s.transactionThreshold ++
    [mkRewardTx H minerAddress s.miningReward rewardTs]

/-- The block a mining run constructs (step 4). -/
def mineNewBlock (H : String → String) (M : List String → String)
    (minerAddress : String) (rewardTs blockTs : Int) (s : LedgerState) : Block :=
  Block.new H M
    (match s.chain.getLast? with | some lb => lb.index + 1 | none => 0)
    (match s.chain.getLast? with | some lb => lb.hash | none => "")
    blockTs (mineBatch H minerAddress rewardTs s) s.difficulty

/-- The block as it sits in the chain after `block.save()` wrote the block
hash into each of its transactions. -/
def mineSavedBlock (H : String → String) (M : List String → String)
    (minerAddress : String) (rewardTs blockTs : Int) (s : LedgerState) : Block :=
  let nb := mineNewBlock H M minerAddress rewardTs blockTs s
  { nb with transactions := nb.transactions.map (fun t => { t with blockHash := nb.hash }) }

/-- Characterisation of a failure-free mining run at difficulty 0 (the
constructor's value, never reassigned) with at least one transaction in the
batch: the lock is released once, no error surfaces, and the final state is
the drain loop's result after the saved block is appended. -/
theorem mine_noFail_eq (H : String → String) (M : List String → String)
    (fuel : Nat) (minerAddress : String) (rewardTs blockTs : Int) (s : LedgerState)
    (hthr : 0 < s.transactionThreshold)
    (hlen : s.transactionThreshold ≤ (loadPendingFromRedis s.pendingRedis).length)
    (hdiff : s.difficulty = 0) :
    minePendingTransactions H M MineFail.noFail true fuel minerAddress rewardTs blockTs s =
      some ((drainFrom MineFail.noFail 0 (mineBatch H minerAddress rewardTs s)
        { s with pendingMem := loadPendingFromRedis s.pendingRedis,
                 chain := s.chain ++ [mineSavedBlock H M minerAddress rewardTs blockTs s] }).1,
        1, none) := by
  have hlen2 : ((loadPendingFromRedis s.pendingRedis).take s.transactionThreshold).length =
      s.transactionThreshold := by
    rw [List.length_take]
    omega
  have hne : (loadPendingFromRedis s.pendingRedis).take s.transactionThreshold ≠ [] := by
    intro hnil
    rw [hnil] at hlen2
    simp at hlen2
    omega
  have hempty := list_isEmpty_false _ hne
  have hbody : mineBody H M MineFail.noFail fuel minerAddress rewardTs blockTs s =
      some (drainFrom MineFail.noFail 0 (mineBatch H minerAddress rewardTs s)
        { s with pendingMem := loadPendingFromRedis s.pendingRedis,
                 chain := s.chain ++ [mineSavedBlock H M minerAddress rewardTs blockTs s] }) := by
    simp only [mineBody, hempty, hdiff, mineBlock_zero, mineBatch, mineNewBlock, mineSavedBlock,
      show (MineFail.noFail = MineFail.loadFail) = False from by simp,
      show (MineFail.noFail = MineFail.saveFail) = False from by simp,
      if_false, Bool.false_eq_true]
  rw [show minePendingTransactions H M MineFail.noFail true fuel minerAddress rewardTs blockTs s =
      (mineBody H M MineFail.noFail fuel minerAddress rewardTs blockTs s).map
        (fun r => (r.1, 1, none)) from rfl,
    hbody]
  rfl

theorem string_data_injective : Function.Injective String.data := by
  intro a b h
  cases a with
  | mk da =>
    cases b with
    | mk db => exact congrArg String.mk h

theorem string_length_zero_iff (s : String) : s.length = 0 ↔ s = "" := by
  constructor
  · intro h
    apply string_data_injective
    have : s.data.length = 0 := h
    simpa using List.length_eq_zero.mp this
  · intro h
    rw [h]
    rfl

/-- Every block a successful mining loop returns passes the difficulty
test. -/
theorem mineBlockAux_hits (H : String → String) :
    ∀ (fuel d : Nat) (b b2 : Block), mineBlockAux H fuel d b = some b2 →
      hitsDifficulty b2.hash d = true := by
  intro fuel
  induction fuel with
  | zero =>
    intro d b b2 h
    unfold mineBlockAux at h
    by_cases hd : hitsDifficulty b.hash d
    · simp only [hd, if_true] at h
      cases h
      exact hd
    · simp [hd] at h
  | succ fuel ih =>
    intro d b b2 h
    unfold mineBlockAux at h
    by_cases hd : hitsDifficulty b.hash d
    · simp only [hd, if_true] at h
      cases h
      exact hd
    · simp only [hd, Bool.false_eq_true, if_false] at h
      exact ih d _ b2 h

/-- C5 — `addTransaction` on a well-formed, valid, positive-amount
transaction whose sender balance is too small: it throws the
insufficient-balance error (`"Not enough balance"`) and leaves the entire
state — balances, pending pool and chain — unchanged. -/
theorem claim_C5 (H : String → String) (V : String → String → String → Option Bool)
    (s : LedgerState) (tx : Transaction)
    (h1 : jsTruthyStr tx.fromAddress = true) (h2 : jsTruthyStr tx.toAddress = true)
    (h3 : Transaction.isValid H V tx = true) (h4 : 0 < tx.amount)
    (h5 : getBalanceOfAddress s.balances tx.fromAddress < tx.amount) :
    addTransaction H V s tx = (s, Except.error ("Not enough balance")) := by
  simp [addTransaction, h1, h2, h3, h5, show ¬tx.amount ≤ 0 by omega]

def hashC : String → String := fun s => "#" ++ s

def merkC : List String → String := fun l => String.intercalate "|" l

def verTrue : String → String → String → Option Bool := fun _ _ _ => some true

def c5Tx : Transaction := Transaction.new hashC (some "A") (some "B") 50 1 (some "sA") ""

def c5Ledger : LedgerState := ⟨[], [("wallet_balance_A", 10)], [], [], 0, 100, 2⟩

theorem claim_C5_witness :
    addTransaction hashC verTrue c5Ledger c5Tx = (c5Ledger, Except.error ("Not enough balance")) :=
  claim_C5 hashC verTrue c5Ledger c5Tx (by decide) (by decide) (by decide) (by decide) (by decide)

/-- C6 — `Transaction.isValid`: a `null` sender is accepted unconditionally;
a non-null sender with a missing or empty signature is rejected; otherwise
the result is exactly the verifier's verdict on (`from`, recomputed content
hash, signature); and a verifier failure (exception) is reported as `false`
rather than thrown. -/
theorem claim_C6 (H : String → String) (V : String → String → String → Option Bool)
    (tx : Transaction) :
    (tx.fromAddress = none → Transaction.isValid H V tx = true) ∧
    (∀ pk, tx.fromAddress = some pk → (tx.signature = none ∨ tx.signature = some "") →
      Transaction.isValid H V tx = false) ∧
    (∀ pk sg b, tx.fromAddress = some pk → tx.signature = some sg → sg ≠ "" →
      V pk (Transaction.calculateHash H tx) sg = some b → Transaction.isValid H V tx = b) ∧
    (∀ pk sg, tx.fromAddress = some pk → tx.signature = some sg → sg ≠ "" →
      V pk (Transaction.calculateHash H tx) sg = none → Transaction.isValid H V tx = false) := by
  refine ⟨?_, ?_, ?_, ?_⟩
  · intro h
    simp [Transaction.isValid, h]
  · intro pk hf hs
    rcases hs with hs | hs <;> simp [Transaction.isValid, hf, hs]
  · intro pk sg b hf hs hne hv
    have hlen : ¬sg.length = 0 := fun h => hne ((string_length_zero_iff sg).mp h)
    simp [Transaction.isValid, hf, hs, hlen, hv]
  · intro pk sg hf hs hne hv
    have hlen : ¬sg.length = 0 := fun h => hne ((string_length_zero_iff sg).mp h)
    simp [Transaction.isValid, hf, hs, hlen, hv]

def c6Reward : Transaction := Transaction.new hashC none (some "M") 100 2 none ""

def c6NoSig : Transaction := Transaction.new hashC (some "A") (some "B") 5 1 none ""

def c6Signed : Transaction := Transaction.new hashC (some "A") (some "B") 5 1 (some "sg") ""

def verNone : String → String → String → Option Bool := fun _ _ _ => none

theorem claim_C6_witness :
    Transaction.isValid hashC verTrue c6Reward = true ∧
    Transaction.isValid hashC verTrue c6NoSig = false ∧
    Transaction.isValid hashC verTrue c6Signed = true ∧
    Transaction.isValid hashC verNone c6Signed = false :=
  ⟨(claim_C6 hashC verTrue c6Reward).1 rfl,
   (claim_C6 hashC verTrue c6NoSig).2.1 "A" rfl (Or.inl rfl),
   (claim_C6 hashC verTrue c6Signed).2.2.1 "A" "sg" true rfl rfl (by decide) rfl,
   (claim_C6 hashC verNone c6Signed).2.2.2 "A" "sg" rfl rfl (by decide) rfl⟩

/-- C7 — `Block.mineBlock`: whenever the nonce search returns, the resulting
block's hash starts with at least `difficulty` hex-zero characters; at
difficulty 0 the loop exits before its first iteration, returning the block
unchanged — and a freshly constructed block has `nonce = 0`. -/
theorem claim_C7 (H : String → String) (M : List String → String) (fuel d : Nat) (b : Block) :
    (∀ b2, Block.mineBlock H fuel b d = some b2 →
      d ≤ b2.hash.length ∧ b2.hash.data.take d = List.replicate d '0') ∧
    Block.mineBlock H fuel b 0 = some b ∧
    (∀ (i : Int) (ph : String) (ts : Int) (txs : List Transaction) (df : Nat),
      (Block.new H M i ph ts txs df).nonce = 0) := by
  refine ⟨?_, mineBlock_zero H fuel b, fun _ _ _ _ _ => rfl⟩
  intro b2 h
  have hhits := mineBlockAux_hits H fuel d b b2 h
  have htake : b2.hash.data.take d = List.replicate d '0' := of_decide_eq_true hhits
  refine ⟨?_, htake⟩
  have hlen := congrArg List.length htake
  simp [List.length_take] at hlen
  omega

def c7Block : Block := Block.new hashC merkC 0 "0" 0 [] 0

theorem claim_C7_witness :
    (0 : Nat) ≤ c7Block.hash.length ∧ c7Block.hash.data.take 0 = List.replicate 0 '0' :=
  (claim_C7 hashC merkC 3 0 c7Block).1 c7Block ((claim_C7 hashC merkC 3 0 c7Block).2.1)

/-- C8 — the mining mutual-exclusion discipline: when the lock is not
acquired, `minePendingTransactions` returns with the state untouched, zero
lock releases and no surfaced error; when the lock is acquired, every
completing invocation — whatever failure any later step injects — releases
the lock exactly once and surfaces no error. -/
theorem claim_C8 (H : String → String) (M : List String → String) (env : MineFail)
    (fuel : Nat) (ma : String) (t1 t2 : Int) (s : LedgerState) :
    minePendingTransactions H M env false fuel ma t1 t2 s = some (s, 0, none) ∧
    (∀ r, minePendingTransactions H M env true fuel ma t1 t2 s = some r →
      r.2.1 = 1 ∧ r.2.2 = none) := by
  constructor
  · rfl
  · intro r h
    rw [show minePendingTransactions H M env true fuel ma t1 t2 s =
        (mineBody H M env fuel ma t1 t2 s).map (fun x => (x.1, 1, none)) from rfl] at h
    cases hb : mineBody H M env fuel ma t1 t2 s with
    | none => rw [hb] at h; simp at h
    | some p =>
      rw [hb] at h
      simp only [Option.map_some'] at h
      cases h
      exact ⟨rfl, rfl⟩

def c8Ledger : LedgerState := ⟨[], [], [], [], 0, 100, 2⟩

theorem claim_C8_witness :
    minePendingTransactions hashC merkC MineFail.saveFail false 3 "M" 1 2 c8Ledger =
      some (c8Ledger, 0, none) ∧
    ((1 : Nat) = 1 ∧ (none : Option String) = none) :=
  ⟨(claim_C8 hashC merkC MineFail.saveFail 3 "M" 1 2 c8Ledger).1,
   (claim_C8 hashC merkC MineFail.saveFail 3 "M" 1 2 c8Ledger).2
     (c8Ledger, 1, none) (by decide)⟩

/-- C10 — `getBalanceOfAddress` never fails: a failed Redis read and a
missing (or empty) stored value both read as balance 0; consequently a
well-formed, valid, positive-amount transaction from an address with no
balance entry is rejected with the insufficient-balance error. -/
theorem claim_C10 (H : String → String) (V : String → String → String → Option Bool)
    (parse : String → Int) (s : LedgerState) (tx : Transaction) :
    getBalanceRead parse (Except.error ()) = 0 ∧
    getBalanceRead parse (Except.ok none) = 0 ∧
    (∀ a, alistGet s.balances (walletKey a) = none → getBalanceOfAddress s.balances a = 0) ∧
    (alistGet s.balances (walletKey tx.fromAddress) = none →
      jsTruthyStr tx.fromAddress = true → jsTruthyStr tx.toAddress = true →
      Transaction.isValid H V tx = true → 0 < tx.amount →
      addTransaction H V s tx = (s, Except.error ("Not enough balance"))) := by
  refine ⟨rfl, rfl, ?_, ?_⟩
  · intro a h
    simp [getBalanceOfAddress, h]
  · intro hnone h1 h2 h3 h4
    apply claim_C5 H V s tx h1 h2 h3 h4
    simp [getBalanceOfAddress, hnone]
    omega

def genesisTampered : Block := ⟨0, "0", 0, [], 0, zeros64, 0, "tampered"⟩

def blockOne : Block := Block.new hashC merkC 1 "tampered" 1 [] 0

/-- C1 counterexample — a two-block chain whose genesis block fails its
self-hash check (its stored hash is not its recomputed hash) while the
single adjacent pair passes every check: `isChainValid` returns `true`,
refuting the claim that it must return `false`. -/
theorem counterexample_C1 :
    genesisTampered.hash ≠ Block.calculateHash hashC genesisTampered ∧
    genesisTampered.merkleRoot = Block.calculateMerkleRoot merkC genesisTampered ∧
    blockPairOk hashC merkC genesisTampered blockOne = true ∧
    isChainValid hashC merkC [genesisTampered, blockOne] = true := by
  decide

/-- C1 (amended) — `isChainValid` performs no self-checks on the genesis
block: its verdict depends on the genesis block only through the stored
`hash` field (used as the predecessor link of block 1), so a chain whose
genesis fails its self-hash or self-Merkle-root check still validates
whenever every adjacent pair `(i-1, i)`, `i ≥ 1`, passes. -/
theorem claim_C1_amended (H : String → String) (M : List String → String)
    (g g' : Block) (rest : List Block) (h : g.hash = g'.hash) :
    isChainValid H M (g :: rest) = isChainValid H M (g' :: rest) := by
  cases rest with
  | nil => rfl
  | cons c rest => simp [isChainValid, isChainValidAux, blockPairOk, h]

def genesisOther : Block := ⟨0, "zzz", 77, [], 3, "mr", 9, "tampered"⟩

theorem claim_C1_amended_witness :
    isChainValid hashC merkC (genesisTampered :: [blockOne]) =
      isChainValid hashC merkC (genesisOther :: [blockOne]) :=
  claim_C1_amended hashC merkC genesisTampered genesisOther [blockOne] rfl

/-- Stripping the `blockHash` back-reference from the transactions loaded
out of Redis changes nothing: they are rebuilt with an empty `blockHash`. -/
theorem loadPending_strip (l : List (String × Transaction)) :
    (loadPendingFromRedis l).map (fun t => { t with blockHash := "" }) =
      loadPendingFromRedis l := by
  simp only [loadPendingFromRedis, List.map_map]
  rfl

/-- C3 — a failure-free mining run (lock held, difficulty 0 as constructed,
at least `transactionThreshold` pending transactions): exactly one block is
appended; its transaction list has `transactionThreshold + 1` elements —
the first `transactionThreshold` pending transactions in pool order
followed by one reward transaction (`from = null`, `to` the miner address,
`amount = miningReward`) — and the chain grows by exactly 1.  (Transactions
are compared after stripping the `blockHash` back-reference, which
`block.save()` fills in on the stored copies.) -/
theorem claim_C3 (H : String → String) (M : List String → String)
    (fuel : Nat) (ma : String) (t1 t2 : Int) (s : LedgerState)
    (hthr : 0 < s.transactionThreshold)
    (hlen : s.transactionThreshold ≤ (loadPendingFromRedis s.pendingRedis).length)
    (hdiff : s.difficulty = 0) :
    ∃ st' b, minePendingTransactions H M MineFail.noFail true fuel ma t1 t2 s =
        some (st', 1, none) ∧
      st'.chain = s.chain ++ [b] ∧
      st'.chain.length = s.chain.length + 1 ∧
      b.transactions.length = s.transactionThreshold + 1 ∧
      ∃ rtx, b.transactions.map (fun t => { t with blockHash := "" }) =
          (loadPendingFromRedis s.pendingRedis).take s.transactionThreshold ++ [rtx] ∧
        rtx.fromAddress = none ∧ rtx.toAddress = some ma ∧ rtx.amount = s.miningReward := by
  have hmain := mine_noFail_eq H M fuel ma t1 t2 s hthr hlen hdiff
  have hframe := drainFrom_frame MineFail.noFail (mineBatch H ma t1 s) 0
    { s with pendingMem := loadPendingFromRedis s.pendingRedis,
             chain := s.chain ++ [mineSavedBlock H M ma t1 t2 s] }
  refine ⟨_, mineSavedBlock H M ma t1 t2 s, hmain, ?_, ?_, ?_, ?_⟩
  · exact hframe.1
  · rw [hframe.1]
    simp
  · have htake : ((loadPendingFromRedis s.pendingRedis).take s.transactionThreshold).length =
        s.transactionThreshold := by
      rw [List.length_take]
      omega
    simp [mineSavedBlock, mineNewBlock, Block.new, mineBatch, htake]
    omega
  · refine ⟨mkRewardTx H ma s.miningReward t1, ?_, rfl, rfl, rfl⟩
    show ((mineBatch H ma t1 s).map
        (fun t => { t with blockHash := (mineNewBlock H M ma t1 t2 s).hash })).map
        (fun t => { t with blockHash := "" }) = _
    rw [List.map_map]
    show (mineBatch H ma t1 s).map (fun t => { t with blockHash := "" }) = _
    simp only [mineBatch, List.map_append, List.map_take, loadPending_strip]
    rfl

def pTx1 : Transaction := Transaction.new hashC (some "A") (some "B") 5 1 (some "sA") ""

def pTx2 : Transaction := Transaction.new hashC (some "B") (some "C") 7 2 (some "sB") ""

def mineLedger : LedgerState :=
  ⟨[], [("wallet_balance_A", 50)], [(pTx1.hash, pTx1), (pTx2.hash, pTx2)], [], 0, 100, 2⟩

theorem claim_C3_witness :
    ∃ st' b, minePendingTransactions hashC merkC MineFail.noFail true 5 "miner" 3 4 mineLedger =
        some (st', 1, none) ∧
      st'.chain = mineLedger.chain ++ [b] ∧
      st'.chain.length = mineLedger.chain.length + 1 ∧
      b.transactions.length = mineLedger.transactionThreshold + 1 ∧
      ∃ rtx, b.transactions.map (fun t => { t with blockHash := "" }) =
          (loadPendingFromRedis mineLedger.pendingRedis).take mineLedger.transactionThreshold ++
            [rtx] ∧
        rtx.fromAddress = none ∧ rtx.toAddress = some "miner" ∧
        rtx.amount = mineLedger.miningReward :=
  claim_C3 hashC merkC 5 "miner" 3 4 mineLedger (by decide) (by decide) rfl

/-- C2 counterexample — a concrete failure-free mining run: the balance
store starts with no entry under the `null`-sender key, yet afterwards it
holds one, `wallet_balance_null ↦ -100`, because the drain loop debits
`tx.fromAddress` unconditionally — also for the reward transaction, whose
sender is `null`.  This refutes the claim that the sender is debited only
when non-null and that no entry is ever created for a null sender. -/
theorem counterexample_C2 :
    alistGet mineLedger.balances (walletKey none) = none ∧
    (minePendingTransactions hashC merkC MineFail.noFail true 5 "miner" 3 4 mineLedger).map
      (fun r => alistGet r.1.balances (walletKey none)) = some (some (-100)) := by
  decide

/-- The signed balance contribution of one drained transaction to the key
`k`: `+amount` when `k` is the wallet key of `to`, `−amount` when `k` is the
wallet key of `from` (a `null` sender renders as the literal key suffix
`null`). -/
def txDelta (k : String) (tx : Transaction) : Int :=
  (if walletKey tx.toAddress = k then tx.amount else 0) -
  (if walletKey tx.fromAddress = k then tx.amount else 0)

/-- The net of the per-transaction balance deltas a drained batch applies to
the key `k`. -/
def netDelta (k : String) (txs : List Transaction) : Int :=
  (txs.map (txDelta k)).sum

theorem updateWalletBalance_getD_self (bal : List (String × Int)) (a : Option String)
    (amt : Int) :
    (alistGet (updateWalletBalance bal a amt) (walletKey a)).getD 0 =
      (alistGet bal (walletKey a)).getD 0 + amt := by
  simp [updateWalletBalance, alistGet_set_self]

theorem updateWalletBalance_getD_other (bal : List (String × Int)) (a : Option String)
    (amt : Int) (k : String) (h : k ≠ walletKey a) :
    (alistGet (updateWalletBalance bal a amt) k).getD 0 = (alistGet bal k).getD 0 := by
  simp [updateWalletBalance, alistGet_set_other _ _ _ _ h]

/-- The debit-then-credit pair of one drain iteration, read at an arbitrary
key: `−amt` lands at the `from` key, `+amt` at the `to` key, with aliasing
(equal keys) handled by the signed sum. -/
theorem updateWalletBalance_pair_getD (bal : List (String × Int)) (fa ta : Option String)
    (amt : Int) (k : String) :
    (alistGet (updateWalletBalance (updateWalletBalance bal fa (-amt)) ta amt) k).getD 0 =
      (alistGet bal k).getD 0 +
        ((if walletKey ta = k then amt else 0) - (if walletKey fa = k then amt else 0)) := by
  rcases eq_or_ne (walletKey ta) k with ht | ht
  · subst ht
    rw [updateWalletBalance_getD_self]
    rcases eq_or_ne (walletKey fa) (walletKey ta) with hf | hf
    · rw [← hf, updateWalletBalance_getD_self]
      rw [if_pos rfl]
      omega
    · rw [updateWalletBalance_getD_other _ _ _ _ (Ne.symm hf)]
      rw [if_pos rfl, if_neg hf]
      omega
  · rw [updateWalletBalance_getD_other _ _ _ _ (Ne.symm ht)]
    rcases eq_or_ne (walletKey fa) k with hf | hf
    · subst hf
      rw [updateWalletBalance_getD_self]
      rw [if_neg ht, if_pos rfl]
      omega
    · rw [updateWalletBalance_getD_other _ _ _ _ (Ne.symm hf)]
      rw [if_neg ht, if_neg hf]
      omega

/-- Balance accounting of a failure-free drain loop: every key ends at its
initial value (absent reads as 0) plus the net of the per-transaction
deltas, each applied unconditionally — `−amount` at the `from` key and
`+amount` at the `to` key, in batch order. -/
theorem drainFrom_balances :
    ∀ (txs : List Transaction) (i : Nat) (s : LedgerState) (k : String),
      (alistGet (drainFrom MineFail.noFail i txs s).1.balances k).getD 0 =
        (alistGet s.balances k).getD 0 + netDelta k txs := by
  intro txs
  induction txs with
  | nil => intro i s k; simp [drainFrom, netDelta]
  | cons tx rest ih =>
    intro i s k
    simp only [drainFrom, if_neg (by simp : ¬MineFail.noFail = MineFail.removeFail i)]
    rw [ih]
    have hstep := updateWalletBalance_pair_getD s.balances tx.fromAddress tx.toAddress
      tx.amount k
    rw [show (alistGet (updateWalletBalance
          (updateWalletBalance s.balances tx.fromAddress (-tx.amount))
          tx.toAddress tx.amount) k).getD 0 =
        (alistGet s.balances k).getD 0 + txDelta k tx from hstep]
    simp only [netDelta, List.map_cons, List.sum_cons]
    omega

/-- C2 (amended) — in every successful mining run, every transaction of the
mined batch (including the reward) is removed from the pending pool, and
its balance delta is applied **unconditionally**, in batch order:
`−amount` at the key derived from `from` (a `null` sender renders as the
literal key suffix `null`) and `+amount` at the key of `to` — so every
balance key ends at its initial value plus the net of these
per-transaction deltas, the miner's key receiving the reward's
`+miningReward` among them; and a balance entry is always created or
updated under the null-rendered key by the reward's debit. -/
theorem claim_C2_amended (H : String → String) (M : List String → String)
    (fuel : Nat) (ma : String) (t1 t2 : Int) (s : LedgerState)
    (hthr : 0 < s.transactionThreshold)
    (hlen : s.transactionThreshold ≤ (loadPendingFromRedis s.pendingRedis).length)
    (hdiff : s.difficulty = 0) :
    ∃ st' rtx, minePendingTransactions H M MineFail.noFail true fuel ma t1 t2 s =
        some (st', 1, none) ∧
      rtx.fromAddress = none ∧ rtx.toAddress = some ma ∧ rtx.amount = s.miningReward ∧
      (∀ tx ∈ (loadPendingFromRedis s.pendingRedis).take s.transactionThreshold ++ [rtx],
        alistGet st'.pendingRedis tx.hash = none) ∧
      (∀ k, (alistGet st'.balances k).getD 0 =
        (alistGet s.balances k).getD 0 +
          netDelta k
            ((loadPendingFromRedis s.pendingRedis).take s.transactionThreshold ++ [rtx])) ∧
      (∃ v, alistGet st'.balances (walletKey none) = some v) := by
  have hmain := mine_noFail_eq H M fuel ma t1 t2 s hthr hlen hdiff
  refine ⟨_, mkRewardTx H ma s.miningReward t1, hmain, rfl, rfl, rfl, ?_, ?_, ?_⟩
  · intro tx htx
    exact drainFrom_deletes (mineBatch H ma t1 s) 0 _ tx htx
  · intro k
    exact drainFrom_balances (mineBatch H ma t1 s) 0
      { s with pendingMem := loadPendingFromRedis s.pendingRedis,
               chain := s.chain ++ [mineSavedBlock H M ma t1 t2 s] } k
  · rw [show mineBatch H ma t1 s =
        (loadPendingFromRedis s.pendingRedis).take s.transactionThreshold ++
          [mkRewardTx H ma s.miningReward t1] from rfl,
      drainFrom_append]
    simp only [drainFrom, show ∀ i : Nat, (MineFail.noFail = MineFail.removeFail i) = False from
      fun i => by simp, if_false]
    simp only [mkRewardTx, Transaction.new, updateWalletBalance]
    by_cases hcase : walletKey (some ma) = walletKey none
    · rw [hcase, alistGet_set_self]
      exact ⟨_, rfl⟩
    · rw [alistGet_set_other _ _ _ _ (fun h => hcase h.symm), alistGet_set_self]
      exact ⟨_, rfl⟩

theorem claim_C2_amended_witness :
    ∃ st' rtx, minePendingTransactions hashC merkC MineFail.noFail true 5 "miner" 3 4
        mineLedger = some (st', 1, none) ∧
      rtx.fromAddress = none ∧ rtx.toAddress = some "miner" ∧
      rtx.amount = mineLedger.miningReward ∧
      (∀ tx ∈ (loadPendingFromRedis mineLedger.pendingRedis).take
          mineLedger.transactionThreshold ++ [rtx],
        alistGet st'.pendingRedis tx.hash = none) ∧
      (∀ k, (alistGet st'.balances k).getD 0 =
        (alistGet mineLedger.balances k).getD 0 +
          netDelta k ((loadPendingFromRedis mineLedger.pendingRedis).take
            mineLedger.transactionThreshold ++ [rtx])) ∧
      (∃ v, alistGet st'.balances (walletKey none) = some v) :=
  claim_C2_amended hashC merkC 5 "miner" 3 4 mineLedger (by decide) (by decide) rfl

def c4Tx : Transaction := Transaction.new hashC (some "A") (some "B") 5 1 (some "sg") ""

def c4Ledger : LedgerState := ⟨[], [("wallet_balance_A", 50)], [], [], 0, 100, 2⟩

/-- C4 counterexample — a concrete transaction passing all four intake
checks: `addTransaction` accepts it but resolves with no value (the method
body has no `return` statement), not with the accepted transaction's hash,
refuting the "returns the accepted transaction's hash" part of the claim. -/
theorem counterexample_C4 :
    (addTransaction hashC verTrue c4Ledger c4Tx).2 = Except.ok none ∧
    (addTransaction hashC verTrue c4Ledger c4Tx).2 ≠ Except.ok (some c4Tx.hash) := by
  refine ⟨rfl, ?_⟩
  intro h
  exact Option.noConfusion (Except.ok.inj h)

/-- C4 (amended) — for every transaction passing the four intake checks
(between distinct wallet keys), `addTransaction` debits `from` by the
amount, credits `to` by the amount, stores the transaction in the Redis
pending queue under its hash (and appends it to the in-memory pending
array), leaves the chain untouched — and returns no value. -/
theorem claim_C4_amended (H : String → String) (V : String → String → String → Option Bool)
    (s : LedgerState) (tx : Transaction)
    (h1 : jsTruthyStr tx.fromAddress = true) (h2 : jsTruthyStr tx.toAddress = true)
    (h3 : Transaction.isValid H V tx = true) (h4 : 0 < tx.amount)
    (h5 : tx.amount ≤ getBalanceOfAddress s.balances tx.fromAddress)
    (hne : walletKey tx.fromAddress ≠ walletKey tx.toAddress) :
    ∃ s', addTransaction H V s tx = (s', Except.ok none) ∧
      getBalanceOfAddress s'.balances tx.fromAddress =
        getBalanceOfAddress s.balances tx.fromAddress - tx.amount ∧
      getBalanceOfAddress s'.balances tx.toAddress =
        getBalanceOfAddress s.balances tx.toAddress + tx.amount ∧
      alistGet s'.pendingRedis tx.hash = some tx ∧
      s'.pendingMem = s.pendingMem ++ [tx] ∧
      s'.chain = s.chain := by
  have hnotlt : ¬getBalanceOfAddress s.balances tx.fromAddress < tx.amount := by omega
  refine ⟨{ s with
      balances := updateWalletBalance
        (updateWalletBalance s.balances tx.fromAddress (-tx.amount)) tx.toAddress tx.amount,
      pendingRedis := savePendingToRedis s.pendingRedis tx,
      pendingMem := s.pendingMem ++ [tx] }, ?_, ?_, ?_, ?_, rfl, rfl⟩
  · simp [addTransaction, h1, h2, h3, hnotlt, show ¬tx.amount ≤ 0 by omega]
  · show getBalanceOfAddress
        (updateWalletBalance (updateWalletBalance s.balances tx.fromAddress (-tx.amount))
          tx.toAddress tx.amount) tx.fromAddress = _
    simp only [getBalanceOfAddress, updateWalletBalance]
    rw [alistGet_set_other _ _ _ _ hne, alistGet_set_self]
    show (alistGet s.balances (walletKey tx.fromAddress)).getD 0 + -tx.amount = _
    omega
  · show getBalanceOfAddress
        (updateWalletBalance (updateWalletBalance s.balances tx.fromAddress (-tx.amount))
          tx.toAddress tx.amount) tx.toAddress = _
    simp only [getBalanceOfAddress, updateWalletBalance]
    rw [alistGet_set_self]
    rw [alistGet_set_other _ _ _ _ (Ne.symm hne)]
    rfl
  · show alistGet (savePendingToRedis s.pendingRedis tx) tx.hash = some tx
    exact alistGet_set_self _ _ _

theorem claim_C4_amended_witness :
    ∃ s', addTransaction hashC verTrue c4Ledger c4Tx = (s', Except.ok none) ∧
      getBalanceOfAddress s'.balances c4Tx.fromAddress =
        getBalanceOfAddress c4Ledger.balances c4Tx.fromAddress - c4Tx.amount ∧
      getBalanceOfAddress s'.balances c4Tx.toAddress =
        getBalanceOfAddress c4Ledger.balances c4Tx.toAddress + c4Tx.amount ∧
      alistGet s'.pendingRedis c4Tx.hash = some c4Tx ∧
      s'.pendingMem = c4Ledger.pendingMem ++ [c4Tx] ∧
      s'.chain = c4Ledger.chain :=
  claim_C4_amended hashC verTrue c4Ledger c4Tx (by decide) (by decide) (by decide)
    (by decide) (by decide) (by decide)

/-- C9 — the content hash is a function of exactly `(from, to, amount,
timestamp)`: transactions agreeing on those four fields hash equally, and
changing `signature` or `blockHash` leaves the recomputed hash unchanged;
consequently, for a signed non-reward transaction whose signature verifies
(under an injective digest and a verifier that accepts a given signature
for at most one message hash), mutating `amount` makes `isValid()` return
`false`. -/
theorem claim_C9 (H : String → String) (V : String → String → String → Option Bool) :
    (∀ t1 t2 : Transaction, t1.fromAddress = t2.fromAddress → t1.toAddress = t2.toAddress →
      t1.amount = t2.amount → t1.timestamp = t2.timestamp →
      Transaction.calculateHash H t1 = Transaction.calculateHash H t2) ∧
    (∀ (t : Transaction) (sig : Option String) (bh : String),
      Transaction.calculateHash H { t with signature := sig, blockHash := bh } =
        Transaction.calculateHash H t) ∧
    (∀ (t : Transaction) (pk sg : String) (a2 : Int),
      Function.Injective H →
      (∀ pk2 h h2 sg2, V pk2 h sg2 = some true → V pk2 h2 sg2 = some true → h = h2) →
      t.fromAddress = some pk → t.signature = some sg → sg ≠ "" →
      V pk (Transaction.calculateHash H t) sg = some true →
      a2 ≠ t.amount →
      Transaction.isValid H V { t with amount := a2 } = false) := by
  refine ⟨?_, ?_, ?_⟩
  · intro t1 t2 h1 h2 h3 h4
    simp only [Transaction.calculateHash, h1, h2, h3, h4]
  · intro t sig bh
    rfl
  · intro t pk sg a2 hH hV hf hs hsg hv ha
    have hlen : ¬sg.length = 0 := fun h => hsg ((string_length_zero_iff sg).mp h)
    have hneq : Transaction.calculateHash H { t with amount := a2 } ≠
        Transaction.calculateHash H t := by
      intro he
      apply ha
      have hpre := hH he
      have hd := congrArg String.data hpre
      simp only [string_data_append] at hd
      have h1 := List.append_cancel_right hd
      have h2 := List.append_cancel_left h1
      exact intStr_injective (string_data_injective h2)
    obtain ⟨f, tto, am, ts, sig, bh, hsh⟩ := t
    simp only at hf hs
    subst hf
    subst hs
    simp only [Transaction.isValid]
    rw [if_neg hlen]
    cases hv2 : V pk (Transaction.calculateHash H
        ⟨some pk, tto, a2, ts, some sg, bh, hsh⟩) sg with
    | none => rfl
    | some b =>
      cases b with
      | false => rfl
      | true =>
        exfalso
        exact hneq (hV pk _ _ sg hv2 hv)

theorem hashC_injective : Function.Injective hashC := by
  intro a b h
  have hd := congrArg String.data h
  simp only [hashC, string_data_append] at hd
  exact string_data_injective (List.append_cancel_left hd)

def c9Tx : Transaction := Transaction.new hashC (some "A") (some "B") 5 1 (some "sg") ""

def verBind : String → String → String → Option Bool := fun _ h _ => some (h == "#AB51")

theorem verBind_binding : ∀ pk h h2 sg, verBind pk h sg = some true →
    verBind pk h2 sg = some true → h = h2 := by
  intro pk h h2 sg ha hb
  simp only [verBind, Option.some.injEq] at ha hb
  rw [eq_of_beq ha, eq_of_beq hb]

theorem claim_C9_witness :
    Transaction.isValid hashC verBind { c9Tx with amount := 6 } = false :=
  (claim_C9 hashC verBind).2.2 c9Tx "A" "sg" 6 hashC_injective verBind_binding rfl rfl
    (by decide) (by decide) (by decide)

def c10Tx : Transaction := Transaction.new hashC (some "X") (some "B") 5 1 (some "sg") ""

theorem claim_C10_witness :
    addTransaction hashC verTrue c4Ledger c10Tx =
      (c4Ledger, Except.error ("Not enough balance")) :=
  (claim_C10 hashC verTrue (fun _ => 0) c4Ledger c10Tx).2.2.2 (by decide) (by decide)
    (by decide) (by decide) (by decide)
